import Mathlib

/-!
# Verification of the RLWE secure-aggregation engine (rlwe_sa)

Shallow embedding of the cryptographic core of the `rlwe_sa` repository:
the centered-binomial error sampler (`shell_encryption/sample_error.h`),
the error-parameter validation (`shell_encryption/error_params.h`), the
plaintext splitting helper and the secure-aggregation engine
(`shell_encryption_api.h`).

Components of the library whose implementation files are not part of the
source tree (the symmetric RLWE encrypt/decrypt, the HKDF PRNG, Montgomery
arithmetic, the NTT and the balanced modulus conversion) are modelled from
the specification, as indicated in the doc comment of each such definition.
Machine integers are modelled as `ℕ`/`ℤ`; the unsigned coefficient
arithmetic of the sampler cannot wrap because the modulus always exceeds
twice the (bounded) variance, so it is carried out in `ℤ` directly.
-/

namespace RlweSA

/-- Number of set bits of a 64-bit word (source: `CountOnes64` in
`bits_util.h`, used by `sample_error.h`): the sum of the 64 binary
digits. -/
def countOnes64 (n : ℕ) : ℕ := ∑ j ∈ Finset.range 64, n / 2 ^ j % 2

/-- Number of set bits of a byte (source: `CountOnesInByte` in
`bits_util.h`). -/
def countOnesInByte (n : ℕ) : ℕ := ∑ j ∈ Finset.range 8, n / 2 ^ j % 2

/-- A pseudorandom byte source: the stream of bytes an HKDF PRNG emits,
together with the current read position.  Modelled from the spec: the
HKDF-based PRNG (`single_thread_hkdf_prng.h`, not in the source tree) is a
deterministic byte stream fixed by its 32-byte seed; we identify a seed
with the stream it induces. -/
structure Prng where
  stream : ℕ → ℕ
  pos : ℕ

/-- Source `Rand8`: one byte of randomness (modelled from the spec's PRNG
interface; the stream entry is reduced to a byte). -/
def Prng.rand8 (p : Prng) : ℕ × Prng :=
  (p.stream p.pos % 256, ⟨p.stream, p.pos + 1⟩)

/-- Source `Rand64`: 64 bits of randomness, eight consecutive bytes combined
little-endian (modelled from the spec's PRNG interface). -/
def Prng.rand64 (p : Prng) : ℕ × Prng :=
  (∑ j ∈ Finset.range 8, (p.stream (p.pos + j) % 256) * 256 ^ j,
   ⟨p.stream, p.pos + 8⟩)

/-- Maximum variance accepted by the samplers.  Modelled from the spec
(`constants.h` is not in the source tree): `MaxVariance = 4·2²⁰`. -/
def kMaxVariance : ℕ := 4 * 2 ^ 20

/-- The batched draw loop of `rlwe::SampleFromErrorDistribution`
(`sample_error.h`, lines 56-81): while `k > 0`, consume a positive and a
negative draw of 64 bits while `k ≥ 64`, of one byte while `k ≥ 8`, and of
a masked byte (`r8 & ((1 << k) - 1)`, i.e. `r8 % 2^k`) for the final
`1 ≤ k ≤ 7`, adding the popcount of each positive draw to and subtracting
the popcount of each negative draw from the accumulator. -/
def sampleLoop (k : ℕ) (coeff : ℤ) (p : Prng) : ℤ × Prng :=
  if 64 ≤ k then
    let w1 := p.rand64
    let w2 := w1.2.rand64
    sampleLoop (k - 64) (coeff + (countOnes64 w1.1 : ℤ) - countOnes64 w2.1) w2.2
  else if 8 ≤ k then
    let b1 := p.rand8
    let b2 := b1.2.rand8
    sampleLoop (k - 8) (coeff + (countOnesInByte b1.1 : ℤ) - countOnesInByte b2.1) b2.2
  else if 0 < k then
    let b1 := p.rand8
    let b2 := b1.2.rand8
    (coeff + (countOnesInByte (b1.1 % 2 ^ k) : ℤ) - countOnesInByte (b2.1 % 2 ^ k), b2.2)
  else (coeff, p)
termination_by k
decreasing_by all_goals omega

/-- One coefficient of `rlwe::SampleFromErrorDistribution`
(`sample_error.h`): start the accumulator at the modulus, run the batched
draw loop with `k = 2·variance`, and conditionally subtract the modulus
(the branchless `mask = -(coefficient >= modulus); coefficient -= mask &
modulus`). -/
def sampleOne (q : ℤ) (variance : ℕ) (p : Prng) : ℤ × Prng :=
  let r := sampleLoop (2 * variance) q p
  (if q ≤ r.1 then r.1 - q else r.1, r.2)

/-- The coefficient vector drawn by `rlwe::SampleFromErrorDistribution`
(without the variance guard), threading the PRNG through the `num_coeffs`
iterations.  Coefficients are the integers in `[0, q)` that
`ImportInt`/`ExportInt` round-trip (Montgomery form elided). -/
def sampleErrorVec (q : ℤ) (variance : ℕ) : ℕ → Prng → List ℤ × Prng
  | 0, p => ([], p)
  | (n+1), p =>
    let c := sampleOne q variance p
    let rest := sampleErrorVec q variance n c.2
    (c.1 :: rest.1, rest.2)

/-- Source `rlwe::SampleFromErrorDistribution` (`sample_error.h`, lines 43-92):
fails with `InvalidArgument` when `variance > kMaxVariance`, otherwise
returns the sampled coefficient vector. -/
def SampleFromErrorDistribution (numCoeffs variance : ℕ) (p : Prng) (q : ℤ) :
    Option (List ℤ × Prng) :=
  if kMaxVariance < variance then none
  else some (sampleErrorVec q variance numCoeffs p)

/-- Centered representative of an exported coefficient `x ∈ [0, q)`:
`x` if `x ≤ q/2`, else `x − q` (spec glossary; this is the map the sampler
test `SampleErrorTest.CheckUpperBoundOnNoise` applies). -/
def centeredInt (q x : ℤ) : ℤ := if x ≤ q / 2 then x else x - q

section CountOnesBounds

theorem countOnes64_le (n : ℕ) : countOnes64 n ≤ 64 := by
  calc countOnes64 n ≤ ∑ _j ∈ Finset.range 64, 1 :=
        Finset.sum_le_sum fun j _ => Nat.le_of_lt_succ (Nat.mod_lt _ (by norm_num))
    _ = 64 := by simp

theorem countOnesInByte_le (n : ℕ) : countOnesInByte n ≤ 8 := by
  calc countOnesInByte n ≤ ∑ _j ∈ Finset.range 8, 1 :=
        Finset.sum_le_sum fun j _ => Nat.le_of_lt_succ (Nat.mod_lt _ (by norm_num))
    _ = 8 := by simp

theorem countOnesInByte_mod_le (n k : ℕ) (hk : k ≤ 8) :
    countOnesInByte (n % 2 ^ k) ≤ k := by
  unfold countOnesInByte
  rw [Finset.range_eq_Ico, ← Finset.sum_Ico_consecutive _ (Nat.zero_le k) hk]
  have h2 : ∑ j ∈ Finset.Ico k 8, n % 2 ^ k / 2 ^ j % 2 = 0 := by
    apply Finset.sum_eq_zero
    intro j hj
    have : n % 2 ^ k < 2 ^ j :=
      lt_of_lt_of_le (Nat.mod_lt _ (by positivity))
        (Nat.pow_le_pow_right (by norm_num) (Finset.mem_Ico.mp hj).1)
    simp [Nat.div_eq_of_lt this]
  rw [h2, add_zero]
  calc ∑ j ∈ Finset.Ico 0 k, n % 2 ^ k / 2 ^ j % 2 ≤ ∑ _j ∈ Finset.Ico 0 k, 1 :=
        Finset.sum_le_sum fun j _ => Nat.le_of_lt_succ (Nat.mod_lt _ (by norm_num))
    _ = k := by simp

end CountOnesBounds

section SampleBounds

/-- The batched loop moves the accumulator by at most `k` in either
direction: each batch of `b` remaining bits adds a popcount `≤ b` and
subtracts a popcount `≤ b`. -/
theorem sampleLoop_bounds (k : ℕ) (coeff : ℤ) (p : Prng) :
    coeff - k ≤ (sampleLoop k coeff p).1 ∧ (sampleLoop k coeff p).1 ≤ coeff + k := by
  induction k using Nat.strong_induction_on generalizing coeff p with
  | _ k ih =>
    rw [sampleLoop]
    split
    · next h64 =>
      have h1 : countOnes64 (p.rand64.1) ≤ 64 := countOnes64_le _
      have h2 : countOnes64 (p.rand64.2.rand64.1) ≤ 64 := countOnes64_le _
      obtain ⟨l, r⟩ := ih (k - 64) (by omega)
        (coeff + (countOnes64 p.rand64.1 : ℤ) - countOnes64 p.rand64.2.rand64.1)
        p.rand64.2.rand64.2
      constructor <;>
        · simp only at l r ⊢
          omega
    · split
      · next h8 =>
        have h1 : countOnesInByte (p.rand8.1) ≤ 8 := countOnesInByte_le _
        have h2 : countOnesInByte (p.rand8.2.rand8.1) ≤ 8 := countOnesInByte_le _
        obtain ⟨l, r⟩ := ih (k - 8) (by omega)
          (coeff + (countOnesInByte p.rand8.1 : ℤ) - countOnesInByte p.rand8.2.rand8.1)
          p.rand8.2.rand8.2
        constructor <;>
          · simp only at l r ⊢
            omega
      · split
        · next hk =>
          have h1 : countOnesInByte (p.rand8.1 % 2 ^ k) ≤ k :=
            countOnesInByte_mod_le _ _ (by omega)
          have h2 : countOnesInByte (p.rand8.2.rand8.1 % 2 ^ k) ≤ k :=
            countOnesInByte_mod_le _ _ (by omega)
          constructor <;> · simp only; omega
        · simp

/-- A sampled coefficient lies in `[0, 2v] ∪ [q − 2v, q)`: it is the mod-q
representative of an integer of absolute value at most `2·variance`. -/
theorem sampleOne_mem (q : ℤ) (variance : ℕ) (p : Prng) :
    (0 ≤ (sampleOne q variance p).1 ∧ (sampleOne q variance p).1 ≤ 2 * variance) ∨
    (q - 2 * variance ≤ (sampleOne q variance p).1 ∧ (sampleOne q variance p).1 < q) := by
  obtain ⟨l, r⟩ := sampleLoop_bounds (2 * variance) q p
  simp only [sampleOne]
  split_ifs with h
  · left
    push_cast at l r ⊢
    omega
  · right
    push_cast at l r ⊢
    omega

theorem sampleErrorVec_mem {q : ℤ} {variance n : ℕ} {p : Prng} {x : ℤ}
    (hx : x ∈ (sampleErrorVec q variance n p).1) :
    ∃ p₀ : Prng, x = (sampleOne q variance p₀).1 := by
  induction n generalizing p with
  | zero => simp [sampleErrorVec] at hx
  | succ n ih =>
    simp only [sampleErrorVec, List.mem_cons] at hx
    rcases hx with h | h
    · exact ⟨p, h⟩
    · exact ih h

/-- Range and centered bound for a single sampled coefficient, assuming the
modulus dominates the variance (true for every modulus profile of the
library). -/
theorem sampleOne_centered_bound (q : ℤ) (variance : ℕ) (p : Prng)
    (hq : 4 * variance < q) :
    0 ≤ (sampleOne q variance p).1 ∧ (sampleOne q variance p).1 < q ∧
      (centeredInt q (sampleOne q variance p).1).natAbs ≤ 2 * variance := by
  unfold centeredInt
  rcases sampleOne_mem q variance p with ⟨h1, h2⟩ | ⟨h1, h2⟩ <;>
    split_ifs with h <;> push_cast at * <;> omega

end SampleBounds

section DrawPlan

/-- The widths of the paired draws the sampler's loop performs for a
remaining budget of `k` bits: `k / 64` draws of 64 bits, then
`k % 64 / 8` draws of one byte, then one masked draw of the final
`k % 64 % 8` bits if any remain. -/
def cbdPlan (k : ℕ) : List ℕ :=
  List.replicate (k / 64) 64 ++ List.replicate (k % 64 / 8) 8 ++
    (if k % 64 % 8 = 0 then [] else [k % 64 % 8])

/-- One paired draw of the given width: the popcount of a positive draw
minus the popcount of the negative draw that follows it, together with the
advanced PRNG (a 64-bit draw reads a `Rand64` word, a width-8 draw a full
byte, a smaller draw a masked byte). -/
def planStep (p : Prng) (b : ℕ) : ℤ × Prng :=
  if b = 64 then
    let w1 := p.rand64
    let w2 := w1.2.rand64
    ((countOnes64 w1.1 : ℤ) - countOnes64 w2.1, w2.2)
  else if b = 8 then
    let b1 := p.rand8
    let b2 := b1.2.rand8
    ((countOnesInByte b1.1 : ℤ) - countOnesInByte b2.1, b2.2)
  else
    let b1 := p.rand8
    let b2 := b1.2.rand8
    ((countOnesInByte (b1.1 % 2 ^ b) : ℤ) - countOnesInByte (b2.1 % 2 ^ b), b2.2)

/-- Signed popcount total of a list of paired draws. -/
def planRun (p : Prng) : List ℕ → ℤ × Prng
  | [] => (0, p)
  | b :: rest =>
    let st := planStep p b
    let r := planRun st.2 rest
    (st.1 + r.1, r.2)

theorem cbdPlan_sum (k : ℕ) : (cbdPlan k).sum = k := by
  unfold cbdPlan
  split_ifs with h <;> simp [List.sum_replicate, smul_eq_mul] <;> omega

theorem cbdPlan_zero : cbdPlan 0 = [] := by simp [cbdPlan]

theorem cbdPlan_ge64 {k : ℕ} (h : 64 ≤ k) : cbdPlan k = 64 :: cbdPlan (k - 64) := by
  unfold cbdPlan
  have h1 : k / 64 = (k - 64) / 64 + 1 := by omega
  have h2 : k % 64 = (k - 64) % 64 := by omega
  rw [h1, h2, List.replicate_succ]
  simp

theorem cbdPlan_ge8 {k : ℕ} (h8 : 8 ≤ k) (h64 : k < 64) :
    cbdPlan k = 8 :: cbdPlan (k - 8) := by
  unfold cbdPlan
  have h0 : k / 64 = 0 := by omega
  have h0' : (k - 8) / 64 = 0 := by omega
  have hm : k % 64 = k := by omega
  have hm' : (k - 8) % 64 = k - 8 := by omega
  have h1 : k / 8 = (k - 8) / 8 + 1 := by omega
  have h2 : k % 8 = (k - 8) % 8 := by omega
  rw [h0, h0', hm, hm', h1, h2, List.replicate_succ]
  simp

theorem cbdPlan_small {k : ℕ} (h0 : 0 < k) (h8 : k < 8) : cbdPlan k = [k] := by
  unfold cbdPlan
  have e1 : k / 64 = 0 := by omega
  have e2 : k % 64 = k := by omega
  rw [e2, e1]
  have e3 : k / 8 = 0 := by omega
  rw [e3, if_neg (by omega : ¬k % 8 = 0)]
  have e4 : k % 8 = k := by omega
  rw [e4]
  simp

/-- The sampler's batched loop computes exactly the signed popcount total
of the paired draws of its plan, consuming the PRNG the same way. -/
theorem sampleLoop_eq_planRun (k : ℕ) (c : ℤ) (p : Prng) :
    sampleLoop k c p =
      (c + (planRun p (cbdPlan k)).1, (planRun p (cbdPlan k)).2) := by
  induction k using Nat.strong_induction_on generalizing c p with
  | _ k ih =>
    rw [sampleLoop]
    split
    · next h64 =>
      rw [cbdPlan_ge64 h64]
      simp only [ih (k - 64) (by omega), planRun, planStep]
      norm_num [Prod.ext_iff]
      ring
    · split
      · next h8 =>
        rw [cbdPlan_ge8 h8 (by omega)]
        simp only [ih (k - 8) (by omega), planRun, planStep]
        norm_num [Prod.ext_iff]
        ring
      · split
        · next hk =>
          rw [cbdPlan_small (by omega) (by omega)]
          simp only [planRun, planStep, if_neg (show ¬k = 64 by omega),
            if_neg (show ¬k = 8 by omega)]
          norm_num [Prod.ext_iff]
          ring
        · next hk =>
          have h0 : k = 0 := by omega
          subst h0
          simp [cbdPlan_zero, planRun]

end DrawPlan

section ClaimsSampler

/-- Bit `j` (LSB-first) of the PRNG byte stream. -/
def bitAt (s : ℕ → ℕ) (j : ℕ) : ℕ := s (j / 8) % 256 / 2 ^ (j % 8) % 2

/-- Definition following claim C8's words, for comparison with the source
sampler: "draw 2v random bits from the PRNG and return popcount(first v
bits) − popcount(next v bits) reduced mod q". -/
def claimedSampleOne (q : ℤ) (variance : ℕ) (p : Prng) : ℤ :=
  ((∑ j ∈ Finset.range variance, (bitAt p.stream (8 * p.pos + j) : ℤ)) -
    ∑ j ∈ Finset.range variance, (bitAt p.stream (8 * p.pos + variance + j) : ℤ)) % q

/-- Claim C8 (counterexample to the claim as stated): with variance `v = 8`
and the byte stream `255, 0, 255, 0, …`, the source sampler returns `16`
(it consumes two byte pairs — 2v bits for the positive half and 2v for the
negative half, 32 bits in all over 4 bytes), while the claimed
`popcount(first v bits) − popcount(next v bits)` of the stream is `8`. -/
theorem C8_counterexample :
    (sampleOne 12289 8 ⟨fun n => if n % 2 = 0 then 255 else 0, 0⟩).1 = 16 ∧
    (sampleOne 12289 8 ⟨fun n => if n % 2 = 0 then 255 else 0, 0⟩).2.pos = 4 ∧
    claimedSampleOne 12289 8 ⟨fun n => if n % 2 = 0 then 255 else 0, 0⟩ = 8 ∧
    (16 : ℤ) ≠ 8 := by
  have h := sampleLoop_eq_planRun (2 * 8) 12289 ⟨fun n => if n % 2 = 0 then 255 else 0, 0⟩
  refine ⟨?_, ?_, ?_, by decide⟩
  · simp only [sampleOne, h]
    decide
  · simp only [sampleOne, h]
    decide
  · decide

/-- Claim C8 (amended): for each coefficient the sampler performs paired
draws following `cbdPlan (2·variance)` — 64-bit word pairs while at least
64 bits remain, byte pairs while 8–63 bits remain, one masked byte pair
for a final remainder of 1–7 bits — so each of the positive and the
negative half consumes `2·variance` bits (not `variance`); the coefficient
is the signed popcount total of those draws reduced into `[0, q)`, and the
PRNG advances exactly as the plan prescribes. -/
theorem C8_sampler_batched (q : ℤ) (variance : ℕ) (p : Prng)
    (hq : 2 * (variance : ℤ) < q) :
    (sampleOne q variance p).1 = (planRun p (cbdPlan (2 * variance))).1 % q ∧
    (sampleOne q variance p).2 = (planRun p (cbdPlan (2 * variance))).2 ∧
    (cbdPlan (2 * variance)).sum = 2 * variance := by
  obtain ⟨l, r⟩ := sampleLoop_bounds (2 * variance) q p
  have h := sampleLoop_eq_planRun (2 * variance) q p
  rw [h] at l r
  simp only at l r
  refine ⟨?_, ?_, cbdPlan_sum _⟩
  · simp only [sampleOne, h]
    push_cast at l r
    split_ifs with hc
    · rw [Int.emod_eq_of_lt (by omega) (by omega)]
      omega
    · have hd : (planRun p (cbdPlan (2 * variance))).1 % q =
          ((planRun p (cbdPlan (2 * variance))).1 + q * 1) % q := by
        rw [Int.add_mul_emod_self_left]
      rw [hd, mul_one, Int.emod_eq_of_lt (by omega) (by omega)]
      omega
  · simp only [sampleOne, h]

/-- Concrete instantiation of `C8_sampler_batched`. -/
theorem C8_sampler_batched_witness :
    (2 * ((1 : ℕ) : ℤ) < 97) ∧
    ((sampleOne 97 1 ⟨fun _ => 0, 0⟩).1 = (planRun ⟨fun _ => 0, 0⟩ (cbdPlan (2 * 1))).1 % 97 ∧
     (sampleOne 97 1 ⟨fun _ => 0, 0⟩).2 = (planRun ⟨fun _ => 0, 0⟩ (cbdPlan (2 * 1))).2 ∧
     (cbdPlan (2 * 1)).sum = 2 * 1) :=
  ⟨by decide, C8_sampler_batched 97 1 ⟨fun _ => 0, 0⟩ (by decide)⟩

/-- Claim C9: for every variance `v ≤ MaxVariance` and every PRNG state,
every coefficient returned by the centered-binomial sampler lies in
`[0, q)` and its centered representative has absolute value at most `2v`
(the modulus hypothesis `4v < q` holds for every modulus profile of the
library). -/
theorem C9_sampler_noise_bound (n variance : ℕ) (q : ℤ) (p : Prng)
    (hv : variance ≤ kMaxVariance) (hq : 4 * (variance : ℤ) < q) :
    ∃ vec pOut, SampleFromErrorDistribution n variance p q = some (vec, pOut) ∧
      ∀ x ∈ vec, 0 ≤ x ∧ x < q ∧ (centeredInt q x).natAbs ≤ 2 * variance := by
  refine ⟨(sampleErrorVec q variance n p).1, (sampleErrorVec q variance n p).2, ?_, ?_⟩
  · simp [SampleFromErrorDistribution, Nat.not_lt.mpr hv]
  · intro x hx
    obtain ⟨p₀, rfl⟩ := sampleErrorVec_mem hx
    exact sampleOne_centered_bound q variance p₀ hq

/-- Concrete instantiation of `C9_sampler_noise_bound`. -/
theorem C9_sampler_noise_bound_witness :
    ((1 : ℕ) ≤ kMaxVariance ∧ 4 * ((1 : ℕ) : ℤ) < 13) ∧
    (∃ vec pOut, SampleFromErrorDistribution 2 1 ⟨fun _ => 255, 0⟩ 13 = some (vec, pOut) ∧
      ∀ x ∈ vec, 0 ≤ x ∧ x < 13 ∧ (centeredInt 13 x).natAbs ≤ 2 * 1) :=
  ⟨⟨by decide, by decide⟩,
    C9_sampler_noise_bound 2 1 13 ⟨fun _ => 255, 0⟩ (by decide) (by decide)⟩

end ClaimsSampler

section SplitVector

/-- Source `RlweSecAgg::splitVector` (`shell_encryption_api.h`, lines 79-96):
split the vector into `n` parts; each part has `partSize = |input| / n`
elements, except that the part of index `n - 1` runs to the end of the
input. -/
def splitVector {α : Type} (inputVector : List α) (n : ℕ) : List (List α) :=
  (List.range n).map fun i =>
    if i = n - 1 then inputVector.drop (i * (inputVector.length / n))
    else (inputVector.drop (i * (inputVector.length / n))).take (inputVector.length / n)

theorem splitVector_length {α : Type} (l : List α) (n : ℕ) :
    (splitVector l n).length = n := by
  simp [splitVector]

theorem splitVector_getD {α : Type} (l : List α) (n i : ℕ) (h : i < n) :
    (splitVector l n).getD i [] =
      if i = n - 1 then l.drop (i * (l.length / n))
      else (l.drop (i * (l.length / n))).take (l.length / n) := by
  unfold splitVector
  rw [List.getD_eq_getElem _ _ (by simpa using h), List.getElem_map, List.getElem_range]

theorem splitVector_flatten {α : Type} (l : List α) (n : ℕ) (hn : 0 < n) :
    (splitVector l n).flatten = l := by
  unfold splitVector
  rw [List.range_eq_range']
  have key : ∀ m j, j + m = n → 0 < m →
      ((List.range' j m).map fun i =>
        if i = n - 1 then l.drop (i * (l.length / n))
        else (l.drop (i * (l.length / n))).take (l.length / n)).flatten =
      l.drop (j * (l.length / n)) := by
    intro m
    induction m with
    | zero => omega
    | succ m ih =>
      intro j hj _
      rw [List.range'_succ]
      match m, hj with
      | 0, hj =>
        have hjn : j = n - 1 := by omega
        simp [hjn]
      | (m+1), hj =>
        have hjn : ¬j = n - 1 := by omega
        simp only [List.map_cons, List.flatten_cons, if_neg hjn,
          ih (j + 1) (by omega) (by omega)]
        have hdd : l.drop ((j + 1) * (l.length / n)) =
            (l.drop (j * (l.length / n))).drop (l.length / n) := by
          rw [List.drop_drop]
          congr 1
          ring
        rw [hdd, List.take_append_drop]
  have h0 := key n 0 (by omega) hn
  simpa using h0

theorem splitVector_chunk_lengths {α : Type} (l : List α) (n : ℕ) (hn : 0 < n) :
    (∀ i, i < n - 1 → ((splitVector l n).getD i []).length = l.length / n) ∧
    ((splitVector l n).getD (n - 1) []).length = l.length - (n - 1) * (l.length / n) := by
  constructor
  · intro i hi
    rw [splitVector_getD l n i (by omega), if_neg (by omega)]
    rw [List.length_take, List.length_drop]
    have hmul : n * (l.length / n) ≤ l.length := Nat.mul_div_le l.length n
    have : (i + 1) * (l.length / n) ≤ n * (l.length / n) :=
      Nat.mul_le_mul_right _ (by omega)
    have hexp : (i + 1) * (l.length / n) = i * (l.length / n) + l.length / n := by ring
    omega
  · rw [splitVector_getD l n (n - 1) (by omega), if_pos rfl, List.length_drop]

end SplitVector

section ClaimSplitVector

/-- Claim C10: for `1 ≤ n ≤ |V|`, `splitVector V n` returns exactly `n`
chunks whose concatenation is `V`; each of the first `n - 1` chunks has
length `⌊|V|/n⌋` and the last chunk has length `|V| − (n−1)·⌊|V|/n⌋`; in
particular when `n ∣ |V|` every chunk has length `|V|/n`. -/
theorem C10_splitVector (α : Type) (l : List α) (n : ℕ)
    (hn : 1 ≤ n) (_hlen : n ≤ l.length) :
    (splitVector l n).length = n ∧
    (splitVector l n).flatten = l ∧
    (∀ i, i < n - 1 → ((splitVector l n).getD i []).length = l.length / n) ∧
    ((splitVector l n).getD (n - 1) []).length = l.length - (n - 1) * (l.length / n) ∧
    (n ∣ l.length → ∀ i, i < n → ((splitVector l n).getD i []).length = l.length / n) := by
  obtain ⟨hfirst, hlast⟩ := splitVector_chunk_lengths l n (by omega)
  refine ⟨splitVector_length l n, splitVector_flatten l n (by omega), hfirst, hlast, ?_⟩
  intro hdvd i hi
  rcases Nat.lt_or_ge i (n - 1) with h | h
  · exact hfirst i h
  · have hin : i = n - 1 := by omega
    rw [hin, hlast]
    obtain ⟨c, hc⟩ := hdvd
    rw [hc, Nat.mul_div_cancel_left _ (by omega : 0 < n)]
    have : (n - 1) * c + c = n * c := by
      have : n - 1 + 1 = n := by omega
      calc (n - 1) * c + c = (n - 1 + 1) * c := by ring
        _ = n * c := by rw [this]
    omega

/-- Concrete instantiation of `C10_splitVector`. -/
theorem C10_splitVector_witness :
    (1 ≤ 2 ∧ 2 ≤ ([5, 6, 7] : List ℕ).length) ∧
    ((splitVector [5, 6, 7] 2).length = 2 ∧
     (splitVector ([5, 6, 7] : List ℕ) 2).flatten = [5, 6, 7] ∧
     (∀ i, i < 2 - 1 → ((splitVector ([5, 6, 7] : List ℕ) 2).getD i []).length =
        ([5, 6, 7] : List ℕ).length / 2) ∧
     ((splitVector ([5, 6, 7] : List ℕ) 2).getD (2 - 1) []).length =
        ([5, 6, 7] : List ℕ).length - (2 - 1) * (([5, 6, 7] : List ℕ).length / 2) ∧
     (2 ∣ ([5, 6, 7] : List ℕ).length → ∀ i, i < 2 →
        ((splitVector ([5, 6, 7] : List ℕ) 2).getD i []).length =
          ([5, 6, 7] : List ℕ).length / 2)) :=
  ⟨⟨by decide, by decide⟩, C10_splitVector ℕ [5, 6, 7] 2 (by decide) (by decide)⟩

end ClaimSplitVector

section ErrorParams

/-- Error kinds surfaced as `absl::Status` codes. -/
inductive RlweStatus where
  | invalidArgument
deriving DecidableEq

/-- Result of an engine operation: a value, a fallible error status, or an
assertion failure (the `assert` in the engine macros aborts the process;
no value escapes). -/
inductive Outcome (α : Type) where
  | ok (val : α)
  | err (status : RlweStatus)
  | abort
deriving DecidableEq

/-- Source `rlwe::ErrorParams::Create` (`error_params.h`, lines 721-739 of the
concatenated `shell_encryption_api.h` source): rejects
`log_t > log_modulus - 1`, then `log_t ≤ 0`, then
`variance > kMaxVariance`, each with `InvalidArgument`; otherwise
constructs the error parameters (here: succeeds). -/
def errorParamsCreate (log_t : ℤ) (variance : ℕ) (log_modulus : ℕ) : Outcome Unit :=
  if (log_modulus : ℤ) - 1 < log_t then .err .invalidArgument
  else if log_t ≤ 0 then .err .invalidArgument
  else if kMaxVariance < variance then .err .invalidArgument
  else .ok ()

/-- Claim C7 (counterexample to the claim as stated): the claim asserts that
`log_t = log q − 1` is rejected; with the engine's 80-bit modulus profile
(`log_modulus = 80`, `variance = 20`), creation at `log_t = 79 = 80 − 1`
succeeds. -/
theorem C7_counterexample :
    errorParamsCreate (80 - 1) 20 80 = Outcome.ok () ∧
    Outcome.ok () ≠ Outcome.err RlweStatus.invalidArgument := by
  refine ⟨by decide, ?_⟩
  intro h
  exact Outcome.noConfusion h

/-- Claim C7 (amended): `ErrorParams::Create` fails — always with
`InvalidArgument` — exactly when `log_t > log q − 1` (so `log_t = log q −
1` is accepted), or `log_t ≤ 0`, or `variance > MaxVariance`; otherwise
creation succeeds. -/
theorem C7_error_params_create (log_t : ℤ) (variance log_modulus : ℕ) :
    (errorParamsCreate log_t variance log_modulus = Outcome.err RlweStatus.invalidArgument ↔
      ((log_modulus : ℤ) - 1 < log_t ∨ log_t ≤ 0 ∨ kMaxVariance < variance)) ∧
    (errorParamsCreate log_t variance log_modulus = Outcome.ok () ↔
      (log_t ≤ (log_modulus : ℤ) - 1 ∧ 0 < log_t ∧ variance ≤ kMaxVariance)) := by
  unfold errorParamsCreate
  split_ifs with h1 h2 h3 <;>
    constructor <;> simp <;> omega

end ErrorParams

section ZModCentered

variable (q : ℕ) [NeZero q]

/-- Centered representative of a residue mod `q` (spec §4.6 and glossary):
`val x` if `val x ≤ q/2`, else `val x − q`.  This is the canonical lift
used by `ConvertModulusBalanced` and by decryption. -/
def centeredVal (x : ZMod q) : ℤ :=
  if x.val ≤ q / 2 then (x.val : ℤ) else (x.val : ℤ) - q

theorem centeredVal_intCast (z : ℤ) (h : 2 * |z| < (q : ℤ)) :
    centeredVal q ((z : ZMod q)) = z := by
  have hval : (((z : ZMod q)).val : ℤ) = z % (q : ℤ) := ZMod.val_intCast z
  have hq : 0 < (q : ℤ) := by
    have := NeZero.pos q
    exact_mod_cast this
  have ha1 : z ≤ |z| := le_abs_self z
  have ha2 : -|z| ≤ z := neg_abs_le z
  unfold centeredVal
  rcases le_or_lt 0 z with hz | hz
  · have hzq : z % (q : ℤ) = z := Int.emod_eq_of_lt hz (by omega)
    rw [hzq] at hval
    split_ifs with hv
    · exact hval
    · exfalso
      have h2 : ((z : ZMod q)).val ≤ q / 2 := by omega
      exact hv h2
  · have h1 : z % (q : ℤ) = (z + q * 1) % (q : ℤ) :=
      (Int.add_mul_emod_self_left (a := z) (b := (q : ℤ)) (c := 1)).symm
    have h2 : (z + q * 1) % (q : ℤ) = z + q := by
      rw [mul_one]
      exact Int.emod_eq_of_lt (by omega) (by omega)
    rw [h1, h2] at hval
    split_ifs with hv
    · exfalso
      have hv' : (((z : ZMod q)).val : ℤ) ≤ ((q / 2 : ℕ) : ℤ) := by exact_mod_cast hv
      omega
    · omega

theorem intCast_centeredVal (x : ZMod q) : ((centeredVal q x : ℤ) : ZMod q) = x := by
  unfold centeredVal
  split_ifs with h
  · push_cast
    rw [ZMod.natCast_val, ZMod.cast_id]
  · push_cast
    rw [ZMod.natCast_val, ZMod.cast_id, ZMod.natCast_self, sub_zero]

end ZModCentered

section Decode

/-- Coefficient decoding in `rlwe::Decrypt` (spec §4.8 step 3, modelled
from the spec — `symmetric_encryption.h` not in the source tree): for the
centered representative `x`, output `((x mod t) + t) mod t ∈ [0, t)`. -/
def decodeCoeff (t x : ℤ) : ℤ := (x % t + t) % t

theorem decodeCoeff_eq (t x : ℤ) : decodeCoeff t x = x % t := by
  unfold decodeCoeff
  calc (x % t + t) % t = (x % t + t * 1) % t := by rw [mul_one]
    _ = x % t % t := Int.add_mul_emod_self_left (x % t) t 1
    _ = x % t := Int.emod_emod_of_dvd x dvd_rfl

theorem decodeCoeff_mul_add (t z m : ℤ) : decodeCoeff t (t * z + m) = m % t := by
  rw [decodeCoeff_eq, add_comm]
  exact Int.add_mul_emod_self_left m t z

end Decode

section Poly

/-- A ring element: `N` residues mod `q` (coefficient form; the NTT form
is the image under a linear bijection and is elided — spec §4.3/§4.4). -/
abbrev Poly (N q : ℕ) := Fin N → ZMod q

variable {N q : ℕ}

/-- Negacyclic product (spec §4.3 multiplication law): the coefficient-form
counterpart of the NTT pointwise product used by the library, in
`Z_q[X]/(X^N + 1)`. -/
def ncMul (a b : Poly N q) : Poly N q :=
  fun k => ∑ i : Fin N, (if (i : ℕ) ≤ (k : ℕ) then (1 : ZMod q) else -1) * a i * b (k - i)

theorem ncMul_neg_left (a b : Poly N q) : ncMul (-a) b = -(ncMul a b) := by
  funext k
  simp only [ncMul, Pi.neg_apply, mul_neg, neg_mul, ← Finset.sum_neg_distrib]

theorem ncMul_add_right (a b c : Poly N q) :
    ncMul a (b + c) = ncMul a b + ncMul a c := by
  funext k
  simp only [ncMul, Pi.add_apply, mul_add, Finset.sum_add_distrib]

/-- Coefficient-wise multiplication by the plaintext modulus `t`
(spec §4.8 step 3: `t·e` applied coefficient-wise to `e`). -/
def scalePoly (t : ℤ) (e : Poly N q) : Poly N q := fun i => (t : ZMod q) * e i

theorem scalePoly_add (t : ℤ) (e1 e2 : Poly N q) :
    scalePoly t (e1 + e2) = scalePoly t e1 + scalePoly t e2 := by
  funext i
  simp [scalePoly, mul_add]

/-- A list of integers read as a polynomial mod `q` (`ConvertToMontgomery`
followed by the elided NTT: each entry imported as a residue). -/
def listToPoly (N q : ℕ) (l : List ℤ) : Poly N q := fun i => ((l.getD i 0 : ℤ) : ZMod q)

end Poly

section RlweOps

variable {N q : ℕ}

/-- Modelled from the spec (§4.8; `rlwe::Encrypt` in
`symmetric_encryption.h` is not in the source tree): symmetric RLWE
encryption, written in coefficient form.  `c0 = a·s + t·e + m`, `c1 = −a`,
with `t = 2^{log t} + 1`; the NTT conversions of the library are elided
via the spec's multiplication law (§4.3), under which the pointwise
products of NTT forms correspond to the negacyclic products used here. -/
def encryptPoly (t : ℤ) (s m a e : Poly N q) : Poly N q × Poly N q :=
  (ncMul a s + scalePoly t e + m, -a)

/-- Modelled from the spec (§4.8; `rlwe::Decrypt` not in the source tree):
accumulate `d = c0 + c1·s`, inverse-NTT (elided), take centered
representatives and reduce into `[0, t)`. -/
def decryptPoly [NeZero q] (t : ℤ) (s : Poly N q) (ct : Poly N q × Poly N q) : List ℤ :=
  List.ofFn fun i : Fin N => decodeCoeff t (centeredVal q ((ct.1 + ncMul ct.2 s) i))

/-- Modelled from the spec (`SymmetricRlweCiphertext::AddInPlaceFst`,
`symmetric_encryption.h`, not in the source tree): adds only the first
components, keeping `c1`.  The spec's §4.7 sentence lists both components,
but that contradicts the spec's own aggregation property (§8.4) and the
in-src test `RlweSecAggTest.Add`, which decrypt an aggregate of
ciphertexts that share the public polynomial `a` under the summed key;
this works only if `c1 = −a` is kept, as the name `AddInPlaceFst`
("first") indicates. -/
def addInPlaceFst (c d : Poly N q × Poly N q) : Poly N q × Poly N q :=
  (c.1 + d.1, c.2)

/-- Master decryption lemma: if `c0 + c1·s` is `t·e + m` for integer
vectors `e`, `m` whose per-coefficient combinations stay below `q/2` in
absolute value, decryption outputs `m mod t` coefficient-wise. -/
theorem decryptPoly_spec [NeZero q] (t : ℤ) (s : Poly N q) (ct : Poly N q × Poly N q)
    (ez mz : Fin N → ℤ)
    (hsum : ct.1 + ncMul ct.2 s =
      scalePoly t (fun i => ((ez i : ℤ) : ZMod q)) + fun i => ((mz i : ℤ) : ZMod q))
    (hbound : ∀ i, 2 * |t * ez i + mz i| < (q : ℤ)) :
    decryptPoly t s ct = List.ofFn fun i => (mz i) % t := by
  unfold decryptPoly
  congr 1
  funext i
  rw [hsum]
  have hcoeff : (scalePoly t (fun i => ((ez i : ℤ) : ZMod q)) + fun i => ((mz i : ℤ) : ZMod q)) i
      = ((t * ez i + mz i : ℤ) : ZMod q) := by
    simp only [Pi.add_apply, scalePoly]
    push_cast
    ring
  rw [hcoeff, centeredVal_intCast q _ (hbound i), decodeCoeff_mul_add]

end RlweOps

section EngineDefs

/-- Modelled from the spec (§4.5; `rlwe::SamplePolynomialFromPrng` in
`polynomial.h` is not in the source tree): a uniform coefficient is formed
from `⌈log₂ q / 64⌉` 64-bit words combined and reduced mod `q`. -/
def sampleUniformWords : ℕ → Prng → ℕ × Prng
  | 0, p => (0, p)
  | (w+1), p =>
    let r := p.rand64
    let rest := sampleUniformWords w r.2
    (r.1 + 2 ^ 64 * rest.1, rest.2)

/-- Number of 64-bit words needed for a uniform draw mod `q`:
`⌈log₂ q / 64⌉` (spec §4.5). -/
def uniformWordCount (q : ℕ) : ℕ := Nat.log2 q / 64 + 1

/-- Modelled from the spec (§4.5): the `N` uniform coefficients of one
public polynomial `a_i`, threading the PRNG. -/
def sampleUniformList (q : ℕ) : ℕ → Prng → List (ZMod q) × Prng
  | 0, p => ([], p)
  | (n+1), p =>
    let c := sampleUniformWords (uniformWordCount q) p
    let rest := sampleUniformList q n c.2
    (((c.1 : ℕ) : ZMod q) :: rest.1, rest.2)

/-- The `K` public polynomials `a_0, …, a_{K−1}` drawn at engine
construction (lines 118-124), threading one PRNG. -/
def sampleUniformPolys (N q : ℕ) : ℕ → Prng → List (Poly N q) × Prng
  | 0, p => ([], p)
  | (k+1), p =>
    let c := sampleUniformList q N p
    let rest := sampleUniformPolys N q k c.2
    ((fun i : Fin N => c.1.getD i 0) :: rest.1, rest.2)

/-- The state of a `RlweSecAgg` engine.  The ring dimension `N` and the
modulus `q` are parameters of the model (the engine hard-codes
`log N = 11` and the 80-bit modulus `kModulus80`, whose numeric value is
in `constants.h`, not in the source tree); `seedStored` models the
`_seed` string, `none` standing for the empty string. -/
structure Engine (N q : ℕ) where
  inputSize : ℕ
  logT : ℕ
  variance : ℕ
  numSplit : ℕ
  seedStored : Option (ℕ → ℕ)
  as : List (Poly N q)

/-- The plaintext modulus `t = 2^{log t} + 1` (`error_params.h` line 808:
`t_ = (one << log_t) + one`). -/
def engineT (logT : ℕ) : ℤ := 2 ^ logT + 1

/-- Source `RlweSecAgg::RlweSecAgg` (lines 99-126): `GetPrg(seed)` uses the
supplied seed when nonempty — without storing it — and otherwise consumes
ambient system randomness (`GenerateSeed`, modelled by the explicit
`fresh` stream) and stores it in `_seed`; then `K = input_size / N`
uniform polynomials are drawn from that PRNG.  The variance is the
truncation of `stddev²` (`std::pow(stddev, 2)` cast to an integer). -/
def mkEngine (N q : ℕ) (inputSize logT variance : ℕ) (seedArg : Option (ℕ → ℕ))
    (fresh : ℕ → ℕ) : Engine N q :=
  { inputSize := inputSize
    logT := logT
    variance := variance
    numSplit := inputSize / N
    seedStored := match seedArg with
      | some _ => none
      | none => some fresh
    as := (sampleUniformPolys N q (inputSize / N) ⟨seedArg.getD fresh, 0⟩).1 }

/-- Source `RlweSecAgg::GetSeed` (lines 129-131): returns the stored `_seed`. -/
def Engine.getSeed {N q : ℕ} (e : Engine N q) : Option (ℕ → ℕ) := e.seedStored

/-- Source `RlweSecAgg::SampleKey` (lines 133-139): `GetPrg()` generates a fresh
seed — overwriting `_seed` — and the key is sampled from the centered
binomial distribution (spec §4.6; `SymmetricRlweKey::Sample` is not in the
source tree: the key is the NTT image of an error vector, kept here in
coefficient form, the NTT being elided throughout). -/
def Engine.sampleKey {N q : ℕ} (e : Engine N q) (fresh : ℕ → ℕ) :
    Poly N q × Engine N q :=
  (listToPoly N q (sampleErrorVec (q : ℤ) e.variance N ⟨fresh, 0⟩).1,
   { e with seedStored := some fresh })

/-- Source `RlweSecAgg::SumKeys` (lines 141-144): `key1.Add(key2)`, coordinatewise
addition of the key polynomials (spec §4.6). -/
def sumKeys {N q : ℕ} (k1 k2 : Poly N q) : Poly N q := k1 + k2

/-- Source `RlweSecAgg::ConvertKey` (lines 221-231): inverse-NTT the key (elided),
apply the modulus-balanced conversion from `q` to `p` (spec §4.6 / §9,
`ConvertModulusBalanced` in `modulus_conversion.h`, not in the source
tree: centered representative mod `q`, reduced mod `p`), and export the
integers in `[0, p)`. -/
def convertKey {N : ℕ} (q p : ℕ) [NeZero q] (k : Poly N q) : List ℤ :=
  List.ofFn fun i : Fin N => centeredVal q (k i) % (p : ℤ)

/-- Source `RlweSecAgg::CreateKey` (lines 145-160): import the integers mod `p`,
apply the modulus-balanced conversion from `p` to `q` (centered
representative mod `p`, reduced mod `q`), convert to NTT (elided) and wrap
as a key. -/
def createKey {N : ℕ} (q p : ℕ) [NeZero p] (coeffs : List ℤ) : Poly N q :=
  fun i : Fin N => ((centeredVal p ((coeffs.getD i 0 : ℤ) : ZMod p) : ℤ) : ZMod q)

/-- One chunk of `RlweSecAgg::Encrypt` (lines 169-178): sample the error
vector for this chunk from the threaded PRNG, lift the plaintext chunk,
and encrypt with the chunk's public polynomial. -/
def encryptChunk {N q : ℕ} (t : ℤ) (v : ℕ) (s a : Poly N q) (mc : List ℤ) (p : Prng) :
    (Poly N q × Poly N q) × Prng :=
  let e := sampleErrorVec (q : ℤ) v N p
  (encryptPoly t s (listToPoly N q mc) a (listToPoly N q e.1), e.2)

/-- The chunk loop of `RlweSecAgg::Encrypt`: chunk `i` is encrypted with
`_as[i]`, one PRNG threaded through all chunks. -/
def encryptChunksZ {N q : ℕ} (t : ℤ) (v : ℕ) (s : Poly N q) :
    Prng → List (Poly N q × List ℤ) → List (Poly N q × Poly N q)
  | _, [] => []
  | p, am :: rest =>
    let c := encryptChunk t v s am.1 am.2 p
    c.1 :: encryptChunksZ t v s c.2 rest

/-- Source `RlweSecAgg::Encrypt` (lines 162-180): `assert` the plaintext length
(an assertion failure aborts — nothing is returned), then `GetPrg()`
generates and stores a fresh seed, the plaintext is split into
`_num_split` chunks and each chunk is encrypted with its `a_i`.  The
sampler's variance guard (`sample_error.h`), which the engine macro would
also turn into an abort, is hoisted out of the chunk loop. -/
def Engine.encrypt {N q : ℕ} (e : Engine N q) (s : Poly N q) (m : List ℤ)
    (fresh : ℕ → ℕ) : Outcome (List (Poly N q × Poly N q)) × Engine N q :=
  if m.length ≠ e.inputSize then (.abort, e)
  else if kMaxVariance < e.variance then (.abort, { e with seedStored := some fresh })
  else
    (.ok (encryptChunksZ (engineT e.logT) e.variance s ⟨fresh, 0⟩
        (e.as.zip (splitVector m e.numSplit))),
     { e with seedStored := some fresh })

/-- Source `RlweSecAgg::Decrypt` (lines 181-192): decrypt ciphertext `i` for
`i < _num_split` and concatenate the per-chunk plaintexts. -/
def Engine.decrypt {N q : ℕ} [NeZero q] (e : Engine N q) (s : Poly N q)
    (cts : List (Poly N q × Poly N q)) : List ℤ :=
  ((List.range e.numSplit).map fun i =>
    decryptPoly (engineT e.logT) s (cts.getD i (0, 0))).flatten

/-- Source `RlweSecAgg::Aggregate` (lines 193-200): chunkwise `AddInPlaceFst`
over the two ciphertext lists (the loop runs over the indices of the
accumulator, which the claims apply at equal lengths). -/
def aggregateCts {N q : ℕ} (cts1 cts2 : List (Poly N q × Poly N q)) :
    List (Poly N q × Poly N q) :=
  List.zipWith addInPlaceFst cts1 cts2

end EngineDefs

section EngineLemmas

theorem sampleUniformPolys_length (N q k : ℕ) (p : Prng) :
    (sampleUniformPolys N q k p).1.length = k := by
  induction k generalizing p with
  | zero => simp [sampleUniformPolys]
  | succ n ih => simp [sampleUniformPolys, ih]

theorem map_comp_snd_zip {α β γ : Type} (l1 : List α) (l2 : List β) (f : β → γ)
    (h : l2.length ≤ l1.length) :
    (l1.zip l2).map (fun pr => f pr.2) = l2.map f := by
  have h1 : (fun pr : α × β => f pr.2) = f ∘ Prod.snd := rfl
  rw [h1, ← List.map_map, List.map_snd_zip l1 l2 h]

theorem sampleErrorVec_length (q : ℤ) (v n : ℕ) (p : Prng) :
    (sampleErrorVec q v n p).1.length = n := by
  induction n generalizing p with
  | zero => simp [sampleErrorVec]
  | succ n ih => simp [sampleErrorVec, ih]

theorem intCast_centeredInt (q : ℕ) (x : ℤ) :
    ((centeredInt (q : ℤ) x : ℤ) : ZMod q) = (x : ZMod q) := by
  unfold centeredInt
  split_ifs with h
  · rfl
  · push_cast
    simp [ZMod.natCast_self]

theorem encryptChunksZ_length {N q : ℕ} (t : ℤ) (v : ℕ) (s : Poly N q)
    (p : Prng) (pairs : List (Poly N q × List ℤ)) :
    (encryptChunksZ t v s p pairs).length = pairs.length := by
  induction pairs generalizing p with
  | nil => simp [encryptChunksZ]
  | cons hd tl ih => simp [encryptChunksZ, ih]

theorem range_map_getD {α β : Type} (l : List α) (n : ℕ) (d : α) (g : α → β)
    (h : l.length = n) :
    (List.range n).map (fun i => g (l.getD i d)) = l.map g := by
  apply List.ext_getElem (by simp [h])
  intro i h1 h2
  simp only [List.getElem_map, List.getElem_range]
  rw [List.getD_eq_getElem _ _ (by simp at h1; omega)]

theorem ofFn_getD_of_length {α : Type} [Inhabited α] (N : ℕ) (c : List α) (d : α)
    (hlen : c.length = N) :
    (List.ofFn fun i : Fin N => c.getD i d) = c := by
  apply List.ext_getElem (by simp [hlen])
  intro i h1 h2
  rw [List.getElem_ofFn]
  exact List.getD_eq_getElem c d (by omega)

/-- Decryption of one freshly encrypted chunk recovers the chunk's
coefficients mod `t`, provided the noise fits below `q/2`. -/
theorem decrypt_encryptChunk {N q : ℕ} [NeZero q] (t : ℤ) (v : ℕ) (s a : Poly N q)
    (mc : List ℤ) (p : Prng) (ht : 0 < t)
    (hnoise : 2 * (t * (2 * v) + (t - 1)) < (q : ℤ))
    (hmc : ∀ x ∈ mc, 0 ≤ x ∧ x < t) :
    decryptPoly t s (encryptChunk t v s a mc p).1 =
      List.ofFn fun i : Fin N => mc.getD i 0 % t := by
  have hv2 : (0 : ℤ) ≤ 2 * v := by positivity
  apply decryptPoly_spec t s _ (fun i => centeredInt q ((sampleErrorVec (q : ℤ) v N p).1.getD i 0))
    (fun i => mc.getD i 0)
  · -- c0 + c1·s = t·e + m
    simp only [encryptChunk, encryptPoly]
    rw [ncMul_neg_left]
    have he : listToPoly N q (sampleErrorVec (q : ℤ) v N p).1 =
        fun i : Fin N =>
          ((centeredInt q ((sampleErrorVec (q : ℤ) v N p).1.getD (i : ℕ) 0) : ℤ) : ZMod q) := by
      funext i
      rw [intCast_centeredInt]
      rfl
    have hm : listToPoly N q mc = fun i : Fin N => ((mc.getD (i : ℕ) 0 : ℤ) : ZMod q) := rfl
    rw [← he, ← hm]
    abel
  · -- noise bound per coefficient
    intro i
    have hmem : (sampleErrorVec (q : ℤ) v N p).1.getD i 0 ∈ (sampleErrorVec (q : ℤ) v N p).1 := by
      have hi : (i : ℕ) < (sampleErrorVec (q : ℤ) v N p).1.length := by
        rw [sampleErrorVec_length]
        exact i.isLt
      rw [List.getD_eq_getElem _ _ hi]
      exact List.getElem_mem hi
    obtain ⟨p₀, hp₀⟩ := sampleErrorVec_mem hmem
    have hb := sampleOne_centered_bound (q : ℤ) v p₀ (by
      have := hnoise
      nlinarith [ht, hv2])
    rw [← hp₀] at hb
    have hez : |centeredInt (q : ℤ) ((sampleErrorVec (q : ℤ) v N p).1.getD i 0)| ≤ 2 * v := by
      rw [Int.abs_eq_natAbs]
      exact_mod_cast hb.2.2
    have hmz : 0 ≤ mc.getD i 0 ∧ mc.getD i 0 < t := by
      rcases Nat.lt_or_ge (i : ℕ) mc.length with h | h
      · rw [List.getD_eq_getElem _ _ h]
        exact hmc _ (List.getElem_mem h)
      · rw [List.getD_eq_default _ _ h]
        exact ⟨le_refl 0, ht⟩
    calc 2 * |t * centeredInt (q : ℤ) ((sampleErrorVec (q : ℤ) v N p).1.getD i 0) + mc.getD i 0|
        ≤ 2 * (|t * centeredInt (q : ℤ) ((sampleErrorVec (q : ℤ) v N p).1.getD i 0)| + |mc.getD i 0|) := by
          have := abs_add (t * centeredInt (q : ℤ) ((sampleErrorVec (q : ℤ) v N p).1.getD i 0))
            (mc.getD i 0)
          omega
      _ ≤ 2 * (t * (2 * v) + (t - 1)) := by
          have h1 : |t * centeredInt (q : ℤ) ((sampleErrorVec (q : ℤ) v N p).1.getD i 0)| ≤
              t * (2 * v) := by
            rw [abs_mul, abs_of_pos ht]
            exact mul_le_mul_of_nonneg_left hez (le_of_lt ht)
          have h2 : |mc.getD i 0| ≤ t - 1 := by
            rw [abs_of_nonneg hmz.1]
            omega
          omega
      _ < (q : ℤ) := hnoise

end EngineLemmas

section EngineRoundTrip

/-- Chunk-loop version of `decrypt_encryptChunk`: decrypting each
ciphertext of the chunk loop recovers each chunk mod `t`, whatever public
polynomials are used and wherever the threaded PRNG starts. -/
theorem encryptChunksZ_map_decrypt {N q : ℕ} [NeZero q] (t : ℤ) (v : ℕ) (s : Poly N q)
    (ht : 0 < t) (hnoise : 2 * (t * (2 * v) + (t - 1)) < (q : ℤ)) :
    ∀ (pairs : List (Poly N q × List ℤ)) (p : Prng),
      (∀ pr ∈ pairs, ∀ x ∈ pr.2, 0 ≤ x ∧ x < t) →
      (encryptChunksZ t v s p pairs).map (decryptPoly t s) =
        pairs.map fun pr => List.ofFn fun i : Fin N => pr.2.getD i 0 % t := by
  intro pairs
  induction pairs with
  | nil => simp [encryptChunksZ]
  | cons hd tl ih =>
    intro p hb
    simp only [encryptChunksZ, List.map_cons]
    congr 1
    · exact decrypt_encryptChunk t v s hd.1 hd.2 p ht hnoise
        (hb hd (List.mem_cons_self hd tl))
    · exact ih _ fun pr hpr => hb pr (List.mem_cons_of_mem hd hpr)

/-- Every chunk produced by splitting a vector of length `K·N` into `K`
parts has length `N` and consists of elements of the vector. -/
theorem splitVector_chunks_uniform {α : Type} (m : List α) (K N : ℕ)
    (hK : 0 < K) (hN : 0 < N) (hlen : m.length = K * N) :
    ∀ c ∈ splitVector m K, c.length = N ∧ ∀ x ∈ c, x ∈ m := by
  intro c hc
  obtain ⟨hfirst, hlast⟩ := splitVector_chunk_lengths m K hK
  have hdiv : m.length / K = N := by
    rw [hlen, Nat.mul_div_cancel_left N hK]
  obtain ⟨i, hi, hgi⟩ := List.mem_iff_getElem.mp hc
  have hiK : i < K := by
    have := splitVector_length m K
    omega
  have hcg : (splitVector m K).getD i [] = c := by
    rw [List.getD_eq_getElem _ _ hi, hgi]
  constructor
  · rcases Nat.lt_or_ge i (K - 1) with h | h
    · have hf := hfirst i h
      rw [hcg] at hf
      rw [hf, hdiv]
    · have hieq : i = K - 1 := by omega
      rw [hieq] at hcg
      rw [← hcg, hlast, hdiv, hlen]
      cases K with
      | zero => omega
      | succ k => simp [Nat.succ_sub_one]; ring_nf; omega
  · intro x hx
    rw [← splitVector_flatten m K hK]
    exact List.mem_flatten_of_mem hc hx

/-- Claim C1: on an engine with `input_size = K·N`, for every plaintext of
length `input_size` with coefficients in `[0, 2^{log t})` and every key,
`Decrypt(s, Encrypt(s, m))` succeeds and returns exactly `m`: the engine
splits `m` into `K` chunks, encrypts chunk `i` under `a_i` with a
fresh-seeded PRNG, and decryption concatenates the per-chunk decryptions.
The hypotheses are the engine's parameter regime: positive dimensions,
`variance ≤ MaxVariance` (else the sampler's guard aborts encryption) and
the fresh-encryption noise fitting below `q/2`, which the engine's fixed
80-bit modulus guarantees for its `log t` range. -/
theorem C1_encrypt_then_decrypt (N q K logT variance : ℕ) [NeZero q]
    (hN : 0 < N) (hK : 0 < K) (hvar : variance ≤ kMaxVariance)
    (hnoise : 2 * (engineT logT * (2 * variance) + (engineT logT - 1)) < (q : ℤ))
    (seedArg : Option (ℕ → ℕ)) (fresh freshE : ℕ → ℕ)
    (s : Poly N q) (m : List ℤ)
    (hlen : m.length = K * N)
    (hm : ∀ x ∈ m, 0 ≤ x ∧ x < 2 ^ logT) :
    ∃ cts, ((mkEngine N q (K * N) logT variance seedArg fresh).encrypt s m freshE).1 =
        Outcome.ok cts ∧
      (mkEngine N q (K * N) logT variance seedArg fresh).decrypt s cts = m := by
  set e := mkEngine N q (K * N) logT variance seedArg fresh with he
  set t := engineT logT with htdef
  have ht : 0 < t := by
    rw [htdef]
    unfold engineT
    positivity
  have hm' : ∀ x ∈ m, 0 ≤ x ∧ x < t := by
    intro x hx
    obtain ⟨h1, h2⟩ := hm x hx
    refine ⟨h1, ?_⟩
    rw [htdef]
    unfold engineT
    omega
  have hsize : e.inputSize = K * N := rfl
  have hsplit : e.numSplit = K := by
    show K * N / N = K
    exact Nat.mul_div_cancel K hN
  have hlogT : e.logT = logT := rfl
  have hvar' : e.variance = variance := rfl
  -- the chunk pairing
  set chunks := splitVector m e.numSplit with hchunks
  have hchunkprops := splitVector_chunks_uniform m K N hK hN hlen
  have hchlen : chunks.length = K := by
    rw [hchunks, hsplit]
    exact splitVector_length m K
  have haslen : e.as.length = K := by
    show (sampleUniformPolys N q (K * N / N) ⟨seedArg.getD fresh, 0⟩).1.length = K
    rw [Nat.mul_div_cancel K hN]
    exact sampleUniformPolys_length N q K _
  set pairs := e.as.zip chunks with hpairs
  have hpairslen : pairs.length = K := by
    rw [hpairs, List.length_zip, haslen, hchlen, min_self]
  set cts := encryptChunksZ t e.variance s ⟨freshE, 0⟩ pairs with hcts
  have hctslen : cts.length = K := by
    rw [hcts, encryptChunksZ_length, hpairslen]
  have c1 : ¬(m.length ≠ e.inputSize) := by
    rw [hsize, hlen]
    omega
  have c2 : ¬(kMaxVariance < e.variance) := by
    rw [hvar']
    omega
  refine ⟨cts, ?_, ?_⟩
  · unfold Engine.encrypt
    rw [if_neg c1, if_neg c2]
    rfl
  · unfold Engine.decrypt
    rw [range_map_getD cts e.numSplit (0, 0) _ (by rw [hctslen, hsplit])]
    rw [show engineT e.logT = t from rfl]
    rw [hcts, encryptChunksZ_map_decrypt t e.variance s ht (by rw [hvar']; exact hnoise) pairs _ ?hb]
    case hb =>
      intro pr hpr x hx
      have h2 : pr.2 ∈ chunks := by
        obtain ⟨pa, pc⟩ := pr
        exact (List.of_mem_zip hpr).2
      have := (hchunkprops pr.2 (by rw [hchunks, hsplit] at h2; exact h2)).2 x hx
      exact hm' x this
    have hmapcs : pairs.map (fun pr => List.ofFn fun i : Fin N => pr.2.getD i 0 % t) =
        chunks.map (fun c => List.ofFn fun i : Fin N => c.getD i 0 % t) :=
      map_comp_snd_zip e.as chunks (fun c => List.ofFn fun i : Fin N => c.getD i 0 % t)
        (by rw [haslen, hchlen])
    rw [hmapcs]
    have hid : ∀ c ∈ chunks, (List.ofFn fun i : Fin N => c.getD i 0 % t) = c := by
      intro c hc
      obtain ⟨hclen, hcmem⟩ := hchunkprops c (by rw [hchunks, hsplit] at hc; exact hc)
      have : (List.ofFn fun i : Fin N => c.getD i 0 % t) =
          List.ofFn fun i : Fin N => c.getD i 0 := by
        congr 1
        funext i
        have hi : (i : ℕ) < c.length := by omega
        rw [List.getD_eq_getElem _ _ hi]
        obtain ⟨h1, h2⟩ := hm' _ (hcmem _ (List.getElem_mem hi))
        exact Int.emod_eq_of_lt h1 h2
      rw [this]
      exact ofFn_getD_of_length N c 0 hclen
    calc (chunks.map fun c => List.ofFn fun i : Fin N => c.getD i 0 % t).flatten
        = chunks.flatten := by
          congr 1
          calc chunks.map (fun c => List.ofFn fun i : Fin N => c.getD i 0 % t)
              = chunks.map id := List.map_congr_left hid
            _ = chunks := List.map_id chunks
      _ = m := by
          rw [hchunks, hsplit]
          exact splitVector_flatten m K hK

/-- Concrete instantiation of `C1_encrypt_then_decrypt`. -/
theorem C1_encrypt_then_decrypt_witness :
    ((0 < 1) ∧ (1 : ℕ) ≤ kMaxVariance ∧
      2 * (engineT 1 * (2 * (1 : ℕ)) + (engineT 1 - 1)) < ((97 : ℕ) : ℤ) ∧
      ([1] : List ℤ).length = 1 * 1 ∧ (∀ x ∈ ([1] : List ℤ), 0 ≤ x ∧ x < 2 ^ 1)) ∧
    (∃ cts, ((mkEngine 1 97 (1 * 1) 1 1 none (fun _ => 0)).encrypt (fun _ => 5) [1]
        (fun _ => 0)).1 = Outcome.ok cts ∧
      (mkEngine 1 97 (1 * 1) 1 1 none (fun _ => 0)).decrypt (fun _ => 5) cts = [1]) :=
  ⟨⟨by decide, by decide, by decide, by decide, by decide⟩,
    C1_encrypt_then_decrypt 1 97 1 1 1 (by decide) (by decide) (by decide) (by decide)
      none (fun _ => 0) (fun _ => 0) (fun _ => 5) [1] (by decide) (by decide)⟩

end EngineRoundTrip

section Homomorphism

theorem noise_calc (t z w zB wB : ℤ) (ht : 0 < t) (hz : |z| ≤ zB)
    (hw0 : 0 ≤ w) (hw : w ≤ wB) : |t * z + w| ≤ t * zB + wB := by
  calc |t * z + w| ≤ |t * z| + |w| := abs_add _ _
    _ = t * |z| + w := by rw [abs_mul, abs_of_pos ht, abs_of_nonneg hw0]
    _ ≤ t * zB + wB := by
        have := mul_le_mul_of_nonneg_left hz (le_of_lt ht)
        omega

theorem sampleErrorVec_centered_getD (qz : ℤ) (v n : ℕ) (p : Prng) (i : ℕ)
    (hi : i < n) (hq : 4 * (v : ℤ) < qz) :
    |centeredInt qz ((sampleErrorVec qz v n p).1.getD i 0)| ≤ 2 * v := by
  have hmem : (sampleErrorVec qz v n p).1.getD i 0 ∈ (sampleErrorVec qz v n p).1 := by
    have hlen : i < (sampleErrorVec qz v n p).1.length := by
      rw [sampleErrorVec_length]
      omega
    rw [List.getD_eq_getElem _ _ hlen]
    exact List.getElem_mem hlen
  obtain ⟨p₀, hp₀⟩ := sampleErrorVec_mem hmem
  have hb := sampleOne_centered_bound qz v p₀ hq
  rw [← hp₀] at hb
  rw [Int.abs_eq_natAbs]
  exact_mod_cast hb.2.2

theorem getD_bound (t : ℤ) (mc : List ℤ) (i : ℕ) (ht : 0 < t)
    (hb : ∀ x ∈ mc, 0 ≤ x ∧ x < t) : 0 ≤ mc.getD i 0 ∧ mc.getD i 0 < t := by
  rcases Nat.lt_or_ge i mc.length with h | h
  · rw [List.getD_eq_getElem _ _ h]
    exact hb _ (List.getElem_mem h)
  · rw [List.getD_eq_default _ _ h]
    exact ⟨le_refl 0, ht⟩

/-- Decrypting the `AddInPlaceFst` of two chunks encrypted under the same
public polynomial `a`, with the summed key, yields the coefficient-wise
sum of the two chunks mod `t` — the c1 component `−a` is shared, so the
key terms cancel against the sum of the two `a·s_j`. -/
theorem decrypt_aggregate_chunk {N q : ℕ} [NeZero q] (t : ℤ) (v : ℕ)
    (s1 s2 a : Poly N q) (mc1 mc2 : List ℤ) (p1 p2 : Prng) (ht : 0 < t)
    (hnoise : 2 * (t * (2 * (2 * v)) + 2 * (t - 1)) < (q : ℤ))
    (hb1 : ∀ x ∈ mc1, 0 ≤ x ∧ x < t) (hb2 : ∀ x ∈ mc2, 0 ≤ x ∧ x < t) :
    decryptPoly t (sumKeys s1 s2)
        (addInPlaceFst (encryptChunk t v s1 a mc1 p1).1 (encryptChunk t v s2 a mc2 p2).1) =
      List.ofFn fun i : Fin N => (mc1.getD i 0 + mc2.getD i 0) % t := by
  have hv2 : (0 : ℤ) ≤ (v : ℤ) := by positivity
  have hq4 : 4 * (v : ℤ) < (q : ℤ) := by nlinarith
  apply decryptPoly_spec t (sumKeys s1 s2) _
    (fun i => centeredInt q ((sampleErrorVec (q : ℤ) v N p1).1.getD i 0) +
      centeredInt q ((sampleErrorVec (q : ℤ) v N p2).1.getD i 0))
    (fun i => mc1.getD i 0 + mc2.getD i 0)
  · -- c0a + c0b + (−a)·(s1+s2) = t(e1+e2) + (m1+m2)
    simp only [encryptChunk, encryptPoly, addInPlaceFst, sumKeys]
    rw [ncMul_neg_left, ncMul_add_right]
    have hsplitE : (fun i : Fin N =>
        ((centeredInt q ((sampleErrorVec (q : ℤ) v N p1).1.getD (i : ℕ) 0) +
          centeredInt q ((sampleErrorVec (q : ℤ) v N p2).1.getD (i : ℕ) 0) : ℤ) : ZMod q)) =
        listToPoly N q (sampleErrorVec (q : ℤ) v N p1).1 +
          listToPoly N q (sampleErrorVec (q : ℤ) v N p2).1 := by
      funext i
      show _ = listToPoly N q (sampleErrorVec (q : ℤ) v N p1).1 i +
        listToPoly N q (sampleErrorVec (q : ℤ) v N p2).1 i
      push_cast
      rw [intCast_centeredInt, intCast_centeredInt]
      rfl
    have hsplitM : (fun i : Fin N => ((mc1.getD (i : ℕ) 0 + mc2.getD (i : ℕ) 0 : ℤ) : ZMod q)) =
        listToPoly N q mc1 + listToPoly N q mc2 := by
      funext i
      show _ = listToPoly N q mc1 i + listToPoly N q mc2 i
      push_cast
      rfl
    rw [hsplitE, hsplitM, scalePoly_add]
    abel
  · intro i
    have hz1 := sampleErrorVec_centered_getD (q : ℤ) v N p1 i i.isLt hq4
    have hz2 := sampleErrorVec_centered_getD (q : ℤ) v N p2 i i.isLt hq4
    have hw1 := getD_bound t mc1 i ht hb1
    have hw2 := getD_bound t mc2 i ht hb2
    have habs : |centeredInt q ((sampleErrorVec (q : ℤ) v N p1).1.getD (i : ℕ) 0) +
        centeredInt q ((sampleErrorVec (q : ℤ) v N p2).1.getD (i : ℕ) 0)| ≤ 2 * (2 * v) := by
      have := abs_add (centeredInt q ((sampleErrorVec (q : ℤ) v N p1).1.getD (i : ℕ) 0))
        (centeredInt q ((sampleErrorVec (q : ℤ) v N p2).1.getD (i : ℕ) 0))
      omega
    have := noise_calc t
      (centeredInt q ((sampleErrorVec (q : ℤ) v N p1).1.getD (i : ℕ) 0) +
        centeredInt q ((sampleErrorVec (q : ℤ) v N p2).1.getD (i : ℕ) 0))
      (mc1.getD (i : ℕ) 0 + mc2.getD (i : ℕ) 0)
      (2 * (2 * v)) (2 * (t - 1)) ht habs (by omega) (by omega)
    omega

/-- Chunk-loop version: decrypting the chunkwise aggregate of two chunk
loops that share the public polynomials, under the summed key. -/
theorem aggregate_map_decrypt {N q : ℕ} [NeZero q] (t : ℤ) (v : ℕ) (s1 s2 : Poly N q)
    (ht : 0 < t) (hnoise : 2 * (t * (2 * (2 * v)) + 2 * (t - 1)) < (q : ℤ)) :
    ∀ (as : List (Poly N q)) (cs1 cs2 : List (List ℤ)) (p1 p2 : Prng),
      cs1.length = as.length → cs2.length = as.length →
      (∀ c ∈ cs1, ∀ x ∈ c, 0 ≤ x ∧ x < t) →
      (∀ c ∈ cs2, ∀ x ∈ c, 0 ≤ x ∧ x < t) →
      (aggregateCts (encryptChunksZ t v s1 p1 (as.zip cs1))
          (encryptChunksZ t v s2 p2 (as.zip cs2))).map (decryptPoly t (sumKeys s1 s2)) =
        List.zipWith (fun c1 c2 => List.ofFn fun i : Fin N => (c1.getD i 0 + c2.getD i 0) % t)
          cs1 cs2 := by
  intro as
  induction as with
  | nil =>
    intro cs1 cs2 p1 p2 h1 h2 _ _
    have : cs1 = [] := List.eq_nil_of_length_eq_zero (by simpa using h1)
    have : cs2 = [] := List.eq_nil_of_length_eq_zero (by simpa using h2)
    subst_vars
    simp [encryptChunksZ, aggregateCts]
  | cons a as ih =>
    intro cs1 cs2 p1 p2 h1 h2 hb1 hb2
    match cs1, cs2 with
    | [], _ => simp at h1
    | _ :: _, [] => simp at h2
    | c1 :: cs1, c2 :: cs2 =>
      simp only [List.zip_cons_cons, encryptChunksZ, aggregateCts, List.zipWith_cons_cons,
        List.map_cons]
      congr 1
      · exact decrypt_aggregate_chunk t v s1 s2 a c1 c2 p1 p2 ht hnoise
          (hb1 c1 (List.mem_cons_self c1 cs1)) (hb2 c2 (List.mem_cons_self c2 cs2))
      · exact ih cs1 cs2 _ _ (by simpa using h1) (by simpa using h2)
          (fun c hc => hb1 c (List.mem_cons_of_mem c1 hc))
          (fun c hc => hb2 c (List.mem_cons_of_mem c2 hc))

/-- Source `splitVector` commutes with coefficient-wise `zipWith` on inputs of
equal length. -/
theorem splitVector_zipWith {α : Type} (f : α → α → α) (m1 m2 : List α) (K : ℕ)
    (hl : m1.length = m2.length) :
    splitVector (List.zipWith f m1 m2) K =
      List.zipWith (fun c1 c2 => List.zipWith f c1 c2) (splitVector m1 K) (splitVector m2 K) := by
  have hzl : (List.zipWith f m1 m2).length = m1.length := by
    rw [List.length_zipWith, hl, min_self]
  apply List.ext_getElem
  · simp [splitVector_length, List.length_zipWith]
  intro j h1 h2
  have hjK : j < K := by
    have := splitVector_length (List.zipWith f m1 m2) K
    omega
  rw [List.getElem_zipWith]
  have g1 : (splitVector (List.zipWith f m1 m2) K)[j] =
      (splitVector (List.zipWith f m1 m2) K).getD j [] :=
    (List.getD_eq_getElem _ _ _).symm
  have hjl1 : j < (splitVector m1 K).length := by rw [splitVector_length]; omega
  have hjl2 : j < (splitVector m2 K).length := by rw [splitVector_length]; omega
  have g2 : (splitVector m1 K)[j] = (splitVector m1 K).getD j [] :=
    (List.getD_eq_getElem _ _ hjl1).symm
  have g3 : (splitVector m2 K)[j] = (splitVector m2 K).getD j [] :=
    (List.getD_eq_getElem _ _ hjl2).symm
  rw [g1, g2, g3, splitVector_getD _ _ _ hjK, splitVector_getD _ _ _ hjK,
    splitVector_getD _ _ _ hjK, hzl, ← hl]
  split_ifs with hj
  · rw [List.drop_zipWith]
  · rw [List.drop_zipWith, List.take_zipWith]

/-- Claim C2: on one engine, encrypting `m1` under `s1` and `m2` under `s2`
(each chunk with the engine's shared `a_i`), aggregating the two
ciphertext lists chunkwise with `AddInPlaceFst`, and decrypting under
`SumKeys(s1, s2)` yields the coordinatewise `(m1 + m2) mod t`, where
`t = 2^{log t} + 1`.  The noise hypothesis is the two-way aggregation
budget (doubled error and message bounds still below `q/2`); the general
n-way statement iterates this theorem chunk-by-chunk. -/
theorem C2_aggregate_homomorphism (N q K logT variance : ℕ) [NeZero q]
    (hN : 0 < N) (hK : 0 < K) (hvar : variance ≤ kMaxVariance)
    (hnoise : 2 * (engineT logT * (2 * (2 * variance)) + 2 * (engineT logT - 1)) < (q : ℤ))
    (seedArg : Option (ℕ → ℕ)) (fresh f1 f2 : ℕ → ℕ)
    (s1 s2 : Poly N q) (m1 m2 : List ℤ)
    (hlen1 : m1.length = K * N) (hlen2 : m2.length = K * N)
    (hm1 : ∀ x ∈ m1, 0 ≤ x ∧ x < 2 ^ logT) (hm2 : ∀ x ∈ m2, 0 ≤ x ∧ x < 2 ^ logT) :
    ∃ cts1 cts2,
      ((mkEngine N q (K * N) logT variance seedArg fresh).encrypt s1 m1 f1).1 =
        Outcome.ok cts1 ∧
      ((mkEngine N q (K * N) logT variance seedArg fresh).encrypt s2 m2 f2).1 =
        Outcome.ok cts2 ∧
      (mkEngine N q (K * N) logT variance seedArg fresh).decrypt (sumKeys s1 s2)
          (aggregateCts cts1 cts2) =
        List.zipWith (fun x y => (x + y) % engineT logT) m1 m2 := by
  set e := mkEngine N q (K * N) logT variance seedArg fresh with he
  set t := engineT logT with htdef
  have ht : 0 < t := by
    rw [htdef]
    unfold engineT
    positivity
  have htm : ∀ x : ℤ, 0 ≤ x ∧ x < 2 ^ logT → 0 ≤ x ∧ x < t := by
    intro x ⟨h1, h2⟩
    refine ⟨h1, ?_⟩
    rw [htdef]
    unfold engineT
    omega
  have hsize : e.inputSize = K * N := rfl
  have hsplit : e.numSplit = K := by
    show K * N / N = K
    exact Nat.mul_div_cancel K hN
  have hvar' : e.variance = variance := rfl
  have haslen : e.as.length = K := by
    show (sampleUniformPolys N q (K * N / N) ⟨seedArg.getD fresh, 0⟩).1.length = K
    rw [Nat.mul_div_cancel K hN]
    exact sampleUniformPolys_length N q K _
  set chunks1 := splitVector m1 e.numSplit with hchunks1
  set chunks2 := splitVector m2 e.numSplit with hchunks2
  have hch1 : ∀ c ∈ chunks1, c.length = N ∧ ∀ x ∈ c, x ∈ m1 := by
    rw [hchunks1, hsplit]
    exact splitVector_chunks_uniform m1 K N hK hN hlen1
  have hch2 : ∀ c ∈ chunks2, c.length = N ∧ ∀ x ∈ c, x ∈ m2 := by
    rw [hchunks2, hsplit]
    exact splitVector_chunks_uniform m2 K N hK hN hlen2
  have hchlen1 : chunks1.length = K := by
    rw [hchunks1, hsplit]
    exact splitVector_length m1 K
  have hchlen2 : chunks2.length = K := by
    rw [hchunks2, hsplit]
    exact splitVector_length m2 K
  set cts1 := encryptChunksZ t e.variance s1 ⟨f1, 0⟩ (e.as.zip chunks1) with hcts1
  set cts2 := encryptChunksZ t e.variance s2 ⟨f2, 0⟩ (e.as.zip chunks2) with hcts2
  have c11 : ¬(m1.length ≠ e.inputSize) := by
    rw [hsize, hlen1]
    omega
  have c12 : ¬(m2.length ≠ e.inputSize) := by
    rw [hsize, hlen2]
    omega
  have c2 : ¬(kMaxVariance < e.variance) := by
    rw [hvar']
    omega
  have hagglen : (aggregateCts cts1 cts2).length = K := by
    rw [aggregateCts, List.length_zipWith, hcts1, hcts2, encryptChunksZ_length,
      encryptChunksZ_length, List.length_zip, List.length_zip, haslen, hchlen1, hchlen2]
    simp
  refine ⟨cts1, cts2, ?_, ?_, ?_⟩
  · unfold Engine.encrypt
    rw [if_neg c11, if_neg c2]
    rfl
  · unfold Engine.encrypt
    rw [if_neg c12, if_neg c2]
    rfl
  · unfold Engine.decrypt
    rw [range_map_getD (aggregateCts cts1 cts2) e.numSplit (0, 0) _ (by rw [hagglen, hsplit])]
    rw [show engineT e.logT = t from rfl]
    rw [hcts1, hcts2]
    rw [aggregate_map_decrypt t e.variance s1 s2 ht (by rw [hvar']; exact hnoise)
      e.as chunks1 chunks2 ⟨f1, 0⟩ ⟨f2, 0⟩ (by rw [haslen, hchlen1])
      (by rw [haslen, hchlen2]) ?hb1 ?hb2]
    case hb1 =>
      intro c hc x hx
      exact htm x (hm1 x ((hch1 c hc).2 x hx))
    case hb2 =>
      intro c hc x hx
      exact htm x (hm2 x ((hch2 c hc).2 x hx))
    -- turn the per-chunk `ofFn` sums into `zipWith`, then reassemble
    have hentry : List.zipWith
        (fun c1 c2 => List.ofFn fun i : Fin N => (c1.getD i 0 + c2.getD i 0) % t)
        chunks1 chunks2 =
        List.zipWith (fun c1 c2 => List.zipWith (fun x y => (x + y) % t) c1 c2)
          chunks1 chunks2 := by
      apply List.ext_getElem (by simp)
      intro j h1 h2
      rw [List.getElem_zipWith, List.getElem_zipWith]
      have hj1 : j < chunks1.length := by
        rw [List.length_zipWith] at h1
        omega
      have hj2 : j < chunks2.length := by
        rw [List.length_zipWith] at h1
        omega
      have hc1 := hch1 (chunks1[j]) (List.getElem_mem hj1)
      have hc2 := hch2 (chunks2[j]) (List.getElem_mem hj2)
      apply List.ext_getElem (by simp [hc1.1, hc2.1, List.length_zipWith])
      intro i hi1 hi2
      rw [List.getElem_ofFn, List.getElem_zipWith]
      have hiN : i < N := by
        rw [List.length_ofFn] at hi1
        omega
      rw [List.getD_eq_getElem _ _ (by omega), List.getD_eq_getElem _ _ (by omega)]
    rw [hentry]
    have h1 : chunks1 = splitVector m1 K := by rw [hchunks1, hsplit]
    have h2 : chunks2 = splitVector m2 K := by rw [hchunks2, hsplit]
    rw [h1, h2, ← splitVector_zipWith (fun x y => (x + y) % t) m1 m2 K (by omega)]
    exact splitVector_flatten _ K hK

/-- Concrete instantiation of `C2_aggregate_homomorphism`. -/
theorem C2_aggregate_homomorphism_witness :
    ((0 < 1) ∧ (1 : ℕ) ≤ kMaxVariance ∧
      2 * (engineT 1 * (2 * (2 * (1 : ℕ))) + 2 * (engineT 1 - 1)) < ((97 : ℕ) : ℤ) ∧
      ([1] : List ℤ).length = 1 * 1 ∧ (∀ x ∈ ([1] : List ℤ), 0 ≤ x ∧ x < 2 ^ 1) ∧
      (∀ x ∈ ([0] : List ℤ), 0 ≤ x ∧ x < 2 ^ 1)) ∧
    (∃ cts1 cts2,
      ((mkEngine 1 97 (1 * 1) 1 1 none (fun _ => 0)).encrypt (fun _ => 2) [1]
          (fun _ => 0)).1 = Outcome.ok cts1 ∧
      ((mkEngine 1 97 (1 * 1) 1 1 none (fun _ => 0)).encrypt (fun _ => 3) [0]
          (fun _ => 1)).1 = Outcome.ok cts2 ∧
      (mkEngine 1 97 (1 * 1) 1 1 none (fun _ => 0)).decrypt
          (sumKeys (fun _ => 2) (fun _ => 3)) (aggregateCts cts1 cts2) =
        List.zipWith (fun x y => (x + y) % engineT 1) [1] [0]) :=
  ⟨⟨by decide, by decide, by decide, by decide, by decide, by decide⟩,
    C2_aggregate_homomorphism 1 97 1 1 1 (by decide) (by decide) (by decide) (by decide)
      none (fun _ => 0) (fun _ => 0) (fun _ => 1) (fun _ => 2) (fun _ => 3) [1] [0]
      (by decide) (by decide) (by decide) (by decide)⟩

end Homomorphism

section ClaimLengthGuard

/-- Claim C5 (counterexample to the claim as stated): encrypting a plaintext
of the wrong length trips the `assert` in `RlweSecAgg::Encrypt` — the
process aborts; no `InvalidArgument` status is returned to the caller
(the engine method returns a plain vector, not a fallible result). -/
theorem C5_counterexample :
    ((mkEngine 1 97 1 1 1 none (fun _ => 0)).encrypt 0 [1, 2] (fun _ => 0)).1 =
      Outcome.abort ∧
    (Outcome.abort : Outcome (List (Poly 1 97 × Poly 1 97))) ≠
      Outcome.err RlweStatus.invalidArgument := by
  refine ⟨rfl, ?_⟩
  intro h
  exact Outcome.noConfusion h

/-- Claim C5 (amended): if the plaintext length differs from `input_size`,
`Encrypt` hits `assert(plaintext.size() == input_size)` and aborts; no
partial ciphertext list is produced and the engine state (including the
stored seed) is unchanged.  The failure is an abort, not an
`InvalidArgument` status surfaced as a fallible result. -/
theorem C5_encrypt_length_assert (N q inputSize logT variance : ℕ)
    (seedArg : Option (ℕ → ℕ)) (fresh freshE : ℕ → ℕ) (s : Poly N q) (m : List ℤ)
    (h : m.length ≠ inputSize) :
    (mkEngine N q inputSize logT variance seedArg fresh).encrypt s m freshE =
      (Outcome.abort, mkEngine N q inputSize logT variance seedArg fresh) := by
  unfold Engine.encrypt
  exact if_pos h

/-- Concrete instantiation of `C5_encrypt_length_assert`. -/
theorem C5_encrypt_length_assert_witness :
    (([1, 2] : List ℤ).length ≠ 1) ∧
    ((mkEngine 1 97 1 1 1 none (fun _ => 0)).encrypt 0 [1, 2] (fun _ => 1) =
      (Outcome.abort, mkEngine 1 97 1 1 1 none (fun _ => 0))) :=
  ⟨by decide,
    C5_encrypt_length_assert 1 97 1 1 1 none (fun _ => 0) (fun _ => 1) 0 [1, 2] (by decide)⟩

end ClaimLengthGuard

section ClaimSeed

/-- Claim C6 (counterexample to the claim as stated): `GetPrg` stores a seed
into `_seed` only when it generates one.  Constructing an engine with an
explicit seed leaves `_seed` empty, so `get_seed()` does not return the
supplied seed; and a subsequent `sample_key()` overwrites `_seed` with the
fresh seed it generates, so the value is not stable either. -/
theorem C6_counterexample :
    ((mkEngine 1 97 1 1 1 (some (fun _ => 7)) (fun _ => 0)).getSeed = none ∧
      (some (fun _ => (7 : ℕ)) : Option (ℕ → ℕ)) ≠ none) ∧
    ((mkEngine 1 97 1 1 1 none (fun _ => 0)).getSeed = some (fun _ => 0) ∧
      ((mkEngine 1 97 1 1 1 none (fun _ => 0)).sampleKey (fun _ => 1)).2.getSeed =
        some (fun _ => 1) ∧
      (some (fun _ => (1 : ℕ)) : Option (ℕ → ℕ)) ≠ some (fun _ => 0)) := by
  refine ⟨⟨rfl, by simp⟩, rfl, rfl, ?_⟩
  intro h
  have h0 := congrFun (Option.some.inj h) 0
  simp at h0

/-- Claim C6 (amended): `get_seed()` returns the seed stored by the most
recent internally seeded PRNG creation: construction without a seed stores
the generated seed; construction with a supplied seed stores nothing (the
empty string is returned); each `sample_key()` and each (length-valid)
`encrypt()` overwrites the stored seed with the fresh seed it generates.
The `a_i`, however, are derived from the seed supplied at construction. -/
theorem C6_seed_storage (N q inputSize logT variance : ℕ) (s fresh f2 f3 : ℕ → ℕ)
    (key : Poly N q) (m : List ℤ) (hm : m.length = inputSize) :
    (mkEngine N q inputSize logT variance (some s) fresh).getSeed = none ∧
    (mkEngine N q inputSize logT variance none fresh).getSeed = some fresh ∧
    ((mkEngine N q inputSize logT variance (some s) fresh).sampleKey f2).2.getSeed =
      some f2 ∧
    (((mkEngine N q inputSize logT variance (some s) fresh).sampleKey f2).2.encrypt
        key m f3).2.getSeed = some f3 := by
  refine ⟨rfl, rfl, rfl, ?_⟩
  unfold Engine.encrypt
  have hcond : ¬(m.length ≠
      (((mkEngine N q inputSize logT variance (some s) fresh).sampleKey f2).2).inputSize) := by
    intro hc
    exact hc hm
  rw [if_neg hcond]
  split_ifs <;> rfl

/-- Concrete instantiation of `C6_seed_storage`. -/
theorem C6_seed_storage_witness :
    (([0] : List ℤ).length = 1) ∧
    ((mkEngine 1 97 1 1 1 (some (fun _ => 7)) (fun _ => 0)).getSeed = none ∧
     (mkEngine 1 97 1 1 1 none (fun _ => 0)).getSeed = some (fun _ => 0) ∧
     ((mkEngine 1 97 1 1 1 (some (fun _ => 7)) (fun _ => 0)).sampleKey (fun _ => 2)).2.getSeed =
       some (fun _ => 2) ∧
     (((mkEngine 1 97 1 1 1 (some (fun _ => 7)) (fun _ => 0)).sampleKey (fun _ => 2)).2.encrypt
        0 [0] (fun _ => 3)).2.getSeed = some (fun _ => 3)) :=
  ⟨by decide,
    C6_seed_storage 1 97 1 1 1 (fun _ => 7) (fun _ => 0) (fun _ => 2) (fun _ => 3)
      0 [0] (by decide)⟩

end ClaimSeed

section ClaimDeterminism

/-- Evaluable form of `sampleOne`: the loop replaced by its draw plan. -/
theorem sampleOne_eq_plan (q : ℤ) (v : ℕ) (p : Prng) :
    sampleOne q v p =
      ((if 0 ≤ (planRun p (cbdPlan (2 * v))).1 then (planRun p (cbdPlan (2 * v))).1
        else q + (planRun p (cbdPlan (2 * v))).1), (planRun p (cbdPlan (2 * v))).2) := by
  simp only [sampleOne, sampleLoop_eq_planRun]
  refine Prod.ext ?_ rfl
  simp only
  split_ifs with h1 h2 <;> omega

/-- Projection of the first ciphertext's `c0` out of an encryption
outcome (used to compare two encryptions concretely). -/
def headC0 {N q : ℕ} (out : Outcome (List (Poly N q × Poly N q))) : Poly N q :=
  match out with
  | .ok (ct :: _) => ct.1
  | _ => 0

/-- Claim C4 (counterexample to the claim as stated): two engines built from
the same seed store identical `a_i`, but `Encrypt` calls `GetPrg()` with
no argument, which draws a *fresh* seed from system randomness on every
call; with different ambient randomness the sampled error changes and the
ciphertexts differ.  Here the same engine encrypts the same `(key,
plaintext)` twice: with ambient stream `0,0,…` the first `c0` coefficient
is `0`, with ambient stream `3,0,0,…` it is `6`. -/
theorem C4_counterexample :
    headC0 (((mkEngine 1 97 1 1 1 (some (fun _ => 0)) (fun _ => 0)).encrypt 0 [0]
        (fun _ => 0)).1) 0 = 0 ∧
    headC0 (((mkEngine 1 97 1 1 1 (some (fun _ => 0)) (fun _ => 0)).encrypt 0 [0]
        (fun n => if n = 0 then 3 else 0)).1) 0 = 6 ∧
    ((0 : ZMod 97) ≠ 6) := by
  refine ⟨?_, ?_, by decide⟩ <;>
    · simp [mkEngine, Engine.encrypt, encryptChunksZ, encryptChunk, sampleErrorVec,
        sampleOne_eq_plan, splitVector, headC0, encryptPoly, scalePoly, listToPoly,
        ncMul, kMaxVariance]
      decide

/-- Claim C4 (amended): two engines constructed from the same seed and the
same `(input_size, log_t)` hold identical `a_i` lists regardless of the
ambient system randomness at construction; and their encryptions of the
same `(key, plaintext)` agree whenever the fresh randomness drawn by the
two `Encrypt` calls agrees (the engines themselves add no further
nondeterminism).  Byte-for-byte equality of independent `Encrypt` calls
fails, since each call draws a fresh seed (see the counterexample). -/
theorem C4_seed_determinism (N q inputSize logT variance : ℕ) (s : ℕ → ℕ)
    (fresh1 fresh2 freshE : ℕ → ℕ) (key : Poly N q) (m : List ℤ) :
    (mkEngine N q inputSize logT variance (some s) fresh1).as =
      (mkEngine N q inputSize logT variance (some s) fresh2).as ∧
    ((mkEngine N q inputSize logT variance (some s) fresh1).encrypt key m freshE).1 =
      ((mkEngine N q inputSize logT variance (some s) fresh2).encrypt key m freshE).1 :=
  ⟨rfl, rfl⟩

end ClaimDeterminism

section ClaimKeyConversion

theorem ofFn_getD_fin {α : Type} {N : ℕ} [Inhabited α] (f : Fin N → α) (i : Fin N) (d : α) :
    (List.ofFn f).getD (i : ℕ) d = f i := by
  rw [List.getD_eq_getElem _ _ (by simp [i.isLt]), List.getElem_ofFn]

theorem centeredVal_intCast_of_range (q : ℕ) [NeZero q] (x : ℤ) (h0 : 0 ≤ x)
    (h1 : x < (q : ℤ)) : centeredVal q ((x : ZMod q)) = centeredInt (q : ℤ) x := by
  have hval : (((x : ZMod q)).val : ℤ) = x % (q : ℤ) := ZMod.val_intCast x
  rw [Int.emod_eq_of_lt h0 h1] at hval
  unfold centeredVal centeredInt
  split_ifs <;> omega

/-- Keys produced by `SampleKey` have centered coefficients bounded by
`2·variance` — this is what makes the claim C3 hypotheses hold for
engine-sampled keys. -/
theorem sampleKey_centered_bound (N q : ℕ) [NeZero q] (e : Engine N q) (fresh : ℕ → ℕ)
    (hq : 4 * (e.variance : ℤ) < (q : ℤ)) (i : Fin N) :
    |centeredVal q ((e.sampleKey fresh).1 i)| ≤ 2 * e.variance := by
  show |centeredVal q
      (((sampleErrorVec (q : ℤ) e.variance N ⟨fresh, 0⟩).1.getD (i : ℕ) 0 : ℤ) : ZMod q)| ≤ _
  have hi : (i : ℕ) < (sampleErrorVec (q : ℤ) e.variance N ⟨fresh, 0⟩).1.length := by
    rw [sampleErrorVec_length]
    exact i.isLt
  have hmem : (sampleErrorVec (q : ℤ) e.variance N ⟨fresh, 0⟩).1.getD (i : ℕ) 0 ∈
      (sampleErrorVec (q : ℤ) e.variance N ⟨fresh, 0⟩).1 := by
    rw [List.getD_eq_getElem _ _ hi]
    exact List.getElem_mem hi
  obtain ⟨p₀, hp₀⟩ := sampleErrorVec_mem hmem
  have hb := sampleOne_centered_bound (q : ℤ) e.variance p₀ hq
  rw [← hp₀] at hb
  rw [centeredVal_intCast_of_range q _ hb.1 hb.2.1, Int.abs_eq_natAbs]
  exact_mod_cast hb.2.2

/-- Claim C3: for keys with centered coefficients bounded by `B` (as
engine-sampled keys are, by `sampleKey_centered_bound`), whose count `n`
keeps `n·B` within half of both moduli, `ConvertKey` of the key sum equals
the coordinatewise sum mod `p` of the individual `ConvertKey` outputs, and
`CreateKey` of that coordinatewise sum reconstructs the key sum — both via
the modulus-balanced lift `c ↦ (c ≤ q/2 ? c : c − q)` and its inverse. -/
theorem C3_key_aggregation (N q qp n B : ℕ) [NeZero q] [NeZero qp]
    (keys : Fin n → Poly N q)
    (hB : ∀ j i, |centeredVal q (keys j i)| ≤ (B : ℤ))
    (hp : 2 * ((n * B : ℕ) : ℤ) < (qp : ℤ)) (hq : 2 * ((n * B : ℕ) : ℤ) < (q : ℤ)) :
    convertKey q qp (∑ j, keys j) =
      (List.ofFn fun i : Fin N =>
        (∑ j, (convertKey q qp (keys j)).getD i 0) % (qp : ℤ)) ∧
    createKey q qp (List.ofFn fun i : Fin N =>
        (∑ j, (convertKey q qp (keys j)).getD i 0) % (qp : ℤ)) = ∑ j, keys j := by
  have hSbound : ∀ i : Fin N, |∑ j, centeredVal q (keys j i)| ≤ ((n * B : ℕ) : ℤ) := by
    intro i
    calc |∑ j, centeredVal q (keys j i)| ≤ ∑ j, |centeredVal q (keys j i)| :=
          Finset.abs_sum_le_sum_abs _ _
      _ ≤ ∑ _j : Fin n, (B : ℤ) := Finset.sum_le_sum fun j _ => hB j i
      _ = ((n * B : ℕ) : ℤ) := by
          rw [Finset.sum_const, Finset.card_univ, Fintype.card_fin, nsmul_eq_mul]
          push_cast
          ring
  have hsumcast : ∀ i : Fin N,
      ((∑ j, centeredVal q (keys j i) : ℤ) : ZMod q) = (∑ j, keys j) i := by
    intro i
    rw [Finset.sum_apply]
    push_cast
    congr 1
    funext j
    exact intCast_centeredVal q (keys j i)
  have hcent : ∀ i : Fin N,
      centeredVal q ((∑ j, keys j) i) = ∑ j, centeredVal q (keys j i) := by
    intro i
    rw [← hsumcast i]
    exact centeredVal_intCast q _ (by have := hSbound i; omega)
  have hconvj : ∀ (j : Fin n) (i : Fin N),
      (convertKey q qp (keys j)).getD (i : ℕ) 0 = centeredVal q (keys j i) % (qp : ℤ) := by
    intro j i
    unfold convertKey
    exact ofFn_getD_fin _ i 0
  have hentry : ∀ i : Fin N,
      (∑ j, (convertKey q qp (keys j)).getD (i : ℕ) 0) % (qp : ℤ) =
        (∑ j, centeredVal q (keys j i)) % (qp : ℤ) := by
    intro i
    rw [Finset.sum_congr rfl fun j _ => hconvj j i]
    exact (Finset.sum_int_mod _ _ _).symm
  constructor
  · rw [show convertKey q qp (∑ j, keys j) =
        List.ofFn fun i : Fin N => centeredVal q ((∑ j, keys j) i) % (qp : ℤ) from rfl]
    congr 1
    funext i
    rw [hcent i]
    exact (hentry i).symm
  · unfold createKey
    funext i
    rw [ofFn_getD_fin _ i 0, hentry i, ZMod.intCast_mod,
      centeredVal_intCast qp _ (by have := hSbound i; omega), hsumcast i]

/-- Concrete instantiation of `C3_key_aggregation`. -/
theorem C3_key_aggregation_witness :
    ((∀ (j : Fin 2) (i : Fin 1),
        |centeredVal 97 ((![fun _ => 2, fun _ => 3] : Fin 2 → Poly 1 97) j i)| ≤ ((3 : ℕ) : ℤ)) ∧
      2 * ((2 * 3 : ℕ) : ℤ) < ((13 : ℕ) : ℤ) ∧ 2 * ((2 * 3 : ℕ) : ℤ) < ((97 : ℕ) : ℤ)) ∧
    (convertKey 97 13 (∑ j, (![fun _ => 2, fun _ => 3] : Fin 2 → Poly 1 97) j) =
      (List.ofFn fun i : Fin 1 =>
        (∑ j, (convertKey 97 13 ((![fun _ => 2, fun _ => 3] : Fin 2 → Poly 1 97) j)).getD i 0) %
          ((13 : ℕ) : ℤ)) ∧
     createKey 97 13 (List.ofFn fun i : Fin 1 =>
        (∑ j, (convertKey 97 13 ((![fun _ => 2, fun _ => 3] : Fin 2 → Poly 1 97) j)).getD i 0) %
          ((13 : ℕ) : ℤ)) = ∑ j, (![fun _ => 2, fun _ => 3] : Fin 2 → Poly 1 97) j) :=
  ⟨⟨by decide, by decide, by decide⟩,
    C3_key_aggregation 1 97 13 2 3 ![fun _ => 2, fun _ => 3] (by decide) (by decide) (by decide)⟩

end ClaimKeyConversion

end RlweSA
